import Mathlib

/-!
# Verification of the Ripe packet/envelope library (src/lib/Ripe.cc)

A shallow embedding of the Ripe cryptographic envelope protocol.  C++
`std::string` values (byte strings) are modelled as `List Nat` whose elements
are byte values `< 256`; character literals appear as their ASCII codes
(`':' = 58`, `'\r' = 13`, `'\n' = 10`, `' ' = 32`, `'=' = 61`).

External collaborators (the AES block permutation of Crypto++, the RSA
signature primitive, and the zlib stream codec) are taken as parameters; their
documented contracts appear as hypotheses of the theorems.  Everything the
repository itself contributes — CBC chaining with PKCS#7 padding as performed
by `CBC_Mode<AES>` + `StreamTransformationFilter`, Base64 and hex codecs,
`normalizeHex`, `byteToVec`, packet assembly (`prepareData`) and the framed
parser (`decryptAES`) — is modelled concretely, definition by definition,
from `src/lib/Ripe.cc`.
-/

namespace Ripe

/-- `Ripe::PACKET_DELIMITER = "\r\n\r\n"` (Ripe.cc:31). -/
def PACKET_DELIMITER : List Nat := [13, 10, 13, 10]

/-- `Ripe::PACKET_DELIMITER_SIZE` (Ripe.cc:32). -/
def PACKET_DELIMITER_SIZE : Nat := PACKET_DELIMITER.length

/-- `Ripe::DATA_DELIMITER = ':'` (Ripe.cc:33), as its ASCII code. -/
def DATA_DELIMITER : Nat := 58

/-- `Ripe::AES_BSIZE = AES::BLOCKSIZE = 16` (Ripe.cc:37). -/
def AES_BSIZE : Nat := 16

/-! ## Hex encoding/decoding -/

/-- Lower-case hex digit of a nibble, as emitted by `std::hex` iostream
formatting (Ripe.cc:477-480 and 503-511): `0..9 -> '0'..'9'`,
`10..15 -> 'a'..'f'`. -/
def hexDigitLower (x : Nat) : Nat := if x < 10 then 48 + x else 87 + x

/-- Upper-case hex digit of a nibble, as emitted by Crypto++ `HexEncoder`
(default uppercase; used in Ripe.cc:261-263 and 538-548). -/
def hexDigitUpper (x : Nat) : Nat := if x < 10 then 48 + x else 55 + x

/-- Numeric value of a hex digit character, accepting both cases (the
behaviour of Crypto++ `HexDecoder` and of `std::istream >> std::hex`);
`none` for every non-hex-digit character. -/
def hexVal (c : Nat) : Option Nat :=
  if 48 ≤ c ∧ c ≤ 57 then some (c - 48)
  else if 97 ≤ c ∧ c ≤ 102 then some (c - 87)
  else if 65 ≤ c ∧ c ≤ 70 then some (c - 55)
  else none

/-- Pair up hex-digit values into bytes; a trailing unpaired digit is
discarded (Crypto++ `HexDecoder` flushes whole bytes only). -/
def hexPairs : List Nat → List Nat
  | h :: l :: rest => (16 * h + l) :: hexPairs rest
  | _ => []

/-- Model of `Ripe::hexToString` (Ripe.cc:526-536): Crypto++ `HexDecoder`
silently skips characters that are not hex digits and packs the digit values
two to a byte. -/
def hexToString (hex : List Nat) : List Nat := hexPairs (hex.filterMap hexVal)

/-- Model of `Ripe::stringToHex` (Ripe.cc:538-548): Crypto++ `HexEncoder`
(uppercase) emits two hex digits per input byte. -/
def stringToHex (raw : List Nat) : List Nat :=
  (raw.map (fun b => [hexDigitUpper (b / 16), hexDigitUpper (b % 16)])).flatten

/-- Model of `Ripe::vecToString` (Ripe.cc:503-511) and of the identical
IV-formatting loop in `Ripe::prepareData` (Ripe.cc:476-480):
`ss << std::hex << std::setfill('0') << std::setw(2) << b` prints each byte
as exactly two lower-case hex digits. -/
def vecToString (iv : List Nat) : List Nat :=
  (iv.map (fun b => [hexDigitLower (b / 16), hexDigitLower (b % 16)])).flatten

/-! ## `normalizeHex` (Ripe.cc:491-501)

```cpp
if (iv.size() == 32) {
    for (int j = 2; j < 32 + 15; j += 2) {
        iv.insert(j, " ");
        j++;
    }
    return true;
}
return false;
```
The loop index advances by 3 per iteration (`j += 2` plus `j++`), running
j = 2, 5, ..., 44: fifteen iterations, each inserting one space character,
turning the 32 hex digits into sixteen space-separated digit pairs.  The
recursion below carries fuel 16, one more than the fifteen iterations the
bound `j < 47` allows from `j = 2`, so the fuel is never exhausted before
the loop condition fails. -/

/-- `std::string::insert(j, " ")`: insert one element at index `j`
(every call site has `j ≤ length`). -/
def insertAt : Nat → Nat → List Nat → List Nat
  | 0, x, l => x :: l
  | _ + 1, x, [] => [x]
  | n + 1, x, a :: l => a :: insertAt n x l

/-- The space-insertion loop of `Ripe::normalizeHex`. -/
def insertSpacesAux : Nat → List Nat → Nat → List Nat
  | 0, s, _ => s
  | fuel + 1, s, j => if j < 47 then insertSpacesAux fuel (insertAt j 32 s) (j + 3) else s

/-- Model of `Ripe::normalizeHex` (Ripe.cc:491-501); the C++ function also
returns a `bool` that no caller in the decrypt path consumes, so only the
resulting string is modelled. -/
def normalizeHex (iv : List Nat) : List Nat :=
  if iv.length = 32 then insertSpacesAux 16 iv 2 else iv

/-! ## `byteToVec` (Ripe.cc:513-524)

```cpp
std::istringstream ss(reinterpret_cast<const char*>(b));
unsigned int c;
while (ss >> std::hex >> c) { hexData.push_back(c); }
```
`operator>>` with `std::hex` skips stream whitespace, then consumes a maximal
nonempty run of hex digits (extraction fails, ending the loop, when none is
found).  `push_back` narrows `unsigned int` to `byte`, i.e. reduces the token
value mod 256.  Every string this code ever parses consists of two-digit
tokens, so `unsigned int` overflow and the `0x`/sign forms of `operator>>`
cannot arise and are not modelled.  The fuel `s.length` bounds the iteration
count: each successfully parsed token consumes at least one character. -/

/-- The whitespace characters skipped by formatted stream extraction. -/
def isStreamWs (c : Nat) : Bool :=
  c == 32 || c == 9 || c == 10 || c == 11 || c == 12 || c == 13

/-- Consume a maximal run of hex digits, returning their values and the
remaining characters. -/
def takeHexRun : List Nat → List Nat × List Nat
  | [] => ([], [])
  | c :: cs =>
    match hexVal c with
    | some d => let p := takeHexRun cs; (d :: p.1, p.2)
    | none => ([], c :: cs)

/-- Accumulate hex digit values into a number (most significant first). -/
def hexFold (ds : List Nat) : Nat := ds.foldl (fun a d => 16 * a + d) 0

/-- The extraction loop of `Ripe::byteToVec`. -/
def byteToVecAux : Nat → List Nat → List Nat
  | 0, _ => []
  | fuel + 1, s =>
    let s1 := s.dropWhile isStreamWs
    match takeHexRun s1 with
    | ([], _) => []
    | (d :: ds, rest) => (hexFold (d :: ds) % 256) :: byteToVecAux fuel rest

/-- Model of `Ripe::byteToVec` (Ripe.cc:513-524). -/
def byteToVec (s : List Nat) : List Nat := byteToVecAux s.length s

/-! ## Base64 (Ripe.cc:232-250)

`Ripe::base64Encode` drives a Crypto++ `Base64Encoder` with line breaks
disabled: standard alphabet, `=` padding.  `Ripe::base64Decode` drives a
`Base64Decoder`, whose decoding lookup maps the 64 alphabet characters to
their indices and *skips every other character* (including `=`, CR and LF);
at `MessageEnd` a leftover of two or three 6-bit groups flushes one or two
final bytes and a single leftover group flushes nothing.  The decoder has no
failure path: it never throws on malformed input. -/

/-- The standard Base64 alphabet, as ASCII codes:
`A..Z`, `a..z`, `0..9`, `+`, `/`. -/
def BASE64_ALPHABET : List Nat :=
  [65, 66, 67, 68, 69, 70, 71, 72, 73, 74, 75, 76, 77, 78, 79, 80, 81, 82,
   83, 84, 85, 86, 87, 88, 89, 90,
   97, 98, 99, 100, 101, 102, 103, 104, 105, 106, 107, 108, 109, 110, 111,
   112, 113, 114, 115, 116, 117, 118, 119, 120, 121, 122,
   48, 49, 50, 51, 52, 53, 54, 55, 56, 57, 43, 47]

/-- Alphabet character of a 6-bit group. -/
def b64Char (i : Nat) : Nat := BASE64_ALPHABET.getD i 65

/-- Decoding lookup: index of an alphabet character, `none` for every
character outside the 64-character alphabet (`=` included). -/
def b64Val (c : Nat) : Option Nat := List.findIdx? (fun a => a == c) BASE64_ALPHABET

/-- Model of `Ripe::base64Encode` (Ripe.cc:232-240): three input bytes per
four output characters, `=`-padded tail. -/
def base64Encode : List Nat → List Nat
  | [] => []
  | [b1] => [b64Char (b1 / 4), b64Char (b1 % 4 * 16), 61, 61]
  | [b1, b2] => [b64Char (b1 / 4), b64Char (b1 % 4 * 16 + b2 / 16), b64Char (b2 % 16 * 4), 61]
  | b1 :: b2 :: b3 :: bs =>
    b64Char (b1 / 4) :: b64Char (b1 % 4 * 16 + b2 / 16) ::
      b64Char (b2 % 16 * 4 + b3 / 64) :: b64Char (b3 % 64) :: base64Encode bs

/-- Reassemble bytes from 6-bit groups, four groups per three bytes, with the
`Base64Decoder` flush rule for a leftover of two or three groups. -/
def decodeQuads : List Nat → List Nat
  | v1 :: v2 :: v3 :: v4 :: vs =>
    (v1 * 4 + v2 / 16) :: (v2 % 16 * 16 + v3 / 4) :: (v3 % 4 * 64 + v4) :: decodeQuads vs
  | [v1, v2] => [v1 * 4 + v2 / 16]
  | [v1, v2, v3] => [v1 * 4 + v2 / 16, v2 % 16 * 16 + v3 / 4]
  | _ => []

/-- Model of `Ripe::base64Decode` (Ripe.cc:242-250). -/
def base64Decode (s : List Nat) : List Nat := decodeQuads (s.filterMap b64Val)


/-! ## AES-CBC with PKCS#7 padding (Crypto++ `CBC_Mode<AES>` +
`StreamTransformationFilter`)

The AES block permutation itself is the external collaborator: the
encryption direction is a parameter `E : List Nat → List Nat → List Nat`
(key and 16-byte block to 16-byte block) and the decryption direction a
parameter `D`, with the inverse law appearing as a theorem hypothesis.
CBC chaining, PKCS#7 padding and the key-size check performed by
`AES` `SetKeyWithIV` (which throws `InvalidKeyLength` unless the key is
16, 24 or 32 bytes) are modelled concretely, since they are the behaviour
the repository's calls at Ripe.cc:267-291 and 314-330 rely on. -/

/-- A block-cipher direction: key and block to block. -/
abbrev BlockFn := List Nat → List Nat → List Nat

/-- AES accepts exactly 16-, 24- and 32-byte keys (`SetKeyWithIV`,
Ripe.cc:279 and 323). -/
def validKeySize (n : Nat) : Bool := n == 16 || n == 24 || n == 32

/-- Error text for an AES key of invalid length (Crypto++
`InvalidKeyLength`). -/
def keyLenErr : String := "AES: invalid key length"

/-- Error text for a ciphertext that is not a whole number of blocks. -/
def cipherLenErr : String := "StreamTransformationFilter: ciphertext length is not a multiple of block size"

/-- Error text for bad PKCS block padding (Crypto++ `InvalidCiphertext`). -/
def padErr : String := "StreamTransformationFilter: invalid PKCS block padding found"

/-- Bytewise XOR of two equal-length blocks. -/
def xorBlock (a b : List Nat) : List Nat := List.zipWith Nat.xor a b

/-- PKCS#7 padding as applied by `StreamTransformationFilter` on encryption
(Ripe.cc:285-288): always appends `m = 16 - len mod 16` bytes of value `m`
(a full block of 16s when the input is block-aligned). -/
def pkcs7Pad (data : List Nat) : List Nat :=
  data ++ List.replicate (16 - data.length % 16) (16 - data.length % 16)

/-- PKCS#7 unpadding as applied by `StreamTransformationFilter` on
decryption: the last byte names the padding length, which must be between
1 and the block size, fit in the data, and consist of identical bytes. -/
def pkcs7Unpad (p : List Nat) : Except String (List Nat) :=
  match p.getLast? with
  | none => .error padErr
  | some n =>
    if 1 ≤ n ∧ n ≤ 16 ∧ n ≤ p.length ∧ (p.drop (p.length - n)).all (fun x => x == n)
    then .ok (p.take (p.length - n))
    else .error padErr

/-- Split a block-aligned byte string into 16-byte blocks.  Fuel
`l.length` suffices: every iteration removes at least one element. -/
def toBlocksAux : Nat → List Nat → List (List Nat)
  | 0, _ => []
  | fuel + 1, l => if l = [] then [] else l.take 16 :: toBlocksAux fuel (l.drop 16)

/-- Split a byte string into its successive 16-byte blocks. -/
def toBlocks (l : List Nat) : List (List Nat) := toBlocksAux l.length l

/-- CBC encryption chaining: each plaintext block is XORed with the previous
ciphertext block (initially the IV) before entering the block cipher. -/
def cbcEnc (E : BlockFn) (k : List Nat) : List Nat → List (List Nat) → List (List Nat)
  | _, [] => []
  | prev, b :: bs =>
    let c := E k (xorBlock b prev)
    c :: cbcEnc E k c bs

/-- CBC decryption chaining. -/
def cbcDec (D : BlockFn) (k : List Nat) : List Nat → List (List Nat) → List (List Nat)
  | _, [] => []
  | prev, c :: cs => xorBlock (D k c) prev :: cbcDec D k c cs

/-! ## The Ripe AES operations -/

/-- Model of `Ripe::encryptAES(buffer, key, keySize, iv)` (Ripe.cc:267-291).
The fresh IV drawn from `AutoSeededRandomPool` is modelled as the parameter
`ivArr` (the pool's 16 output bytes); the function stores it in the caller's
vector, here the second component of the result.  `SetKeyWithIV` rejects
invalid key sizes; the `StreamTransformationFilter` applies PKCS#7 padding
and CBC chaining. -/
def encryptAESRaw (E : BlockFn) (buffer key : List Nat) (keySize : Nat)
    (ivArr : List Nat) : Except String (List Nat × List Nat) :=
  if validKeySize keySize then
    .ok ((cbcEnc E key ivArr (toBlocks (pkcs7Pad buffer))).flatten, ivArr)
  else .error keyLenErr

/-- Model of `Ripe::decryptAES(data, key, keySize, iv)` (Ripe.cc:314-330).
`byte ivArr[16] = {0}` followed by `std::copy(iv.begin(), iv.end(), ivArr)`
zero-extends a short IV vector to 16 bytes — in particular an empty IV
vector yields the all-zero IV. -/
def decryptAESRaw (D : BlockFn) (data key : List Nat) (keySize : Nat)
    (iv : List Nat) : Except String (List Nat) :=
  let ivArr := iv.take 16 ++ List.replicate (16 - iv.length) 0
  if validKeySize keySize then
    if data.length % 16 = 0 then
      pkcs7Unpad (cbcDec D key ivArr (toBlocks data)).flatten
    else .error cipherLenErr
  else .error keyLenErr

/-- The key bytes handed to the cipher by both hex-keyed entry points
(Ripe.cc:362 and the matching builder path): `hexToString(hexKey).c_str()`
read as a `SecByteBlock` of `hexKey.size() / 2` bytes. -/
def keyFromHex (hexKey : List Nat) : List Nat :=
  (hexToString hexKey).take (hexKey.length / 2)

/-- Modelled from the spec: `Ripe::encryptAES(buffer, hexKey, iv)` is an
inline forwarder declared in `include/Ripe.h`, which is not under src/.
Per the spec's envelope-builder step (and mirroring the decrypt-side
forwarding visible at Ripe.cc:362), it converts the hex key to raw bytes
and calls the byte-level overload with key size `hexKey.size() / 2`. -/
def encryptAES (E : BlockFn) (ivArr buffer hexKey : List Nat) :
    Except String (List Nat × List Nat) :=
  encryptAESRaw E buffer (keyFromHex hexKey) (hexKey.length / 2) ivArr

/-- Model of `Ripe::prepareData` (Ripe.cc:468-489): encrypt with a fresh IV
(parameter `ivArr`, the random pool's output), Base64-encode the ciphertext,
then assemble `IV-hex ':' [clientId ':'] base64 "\r\n\r\n"`.  `clientId`
is a C string (`const char*`): `strlen` and `operator<<` read it only up to
the first NUL byte, modelled by `takeWhile`. -/
def prepareData (E : BlockFn) (ivArr data hexKey clientId : List Nat) :
    Except String (List Nat) :=
  match encryptAES E ivArr data hexKey with
  | .error e => .error e
  | .ok (encrypted, iv) =>
    let base64Encoded := base64Encode encrypted
    let cid := clientId.takeWhile (fun c => c ≠ 0)
    .ok (vecToString iv ++ [DATA_DELIMITER]
          ++ (if cid.length > 0 then cid ++ [DATA_DELIMITER] else [])
          ++ base64Encoded ++ PACKET_DELIMITER)

/-- The framed-field extraction step of `Ripe::decryptAES` (Ripe.cc:334-347):
when no explicit IV was supplied and the input is flagged as Base64, look for
the first `':'`; only when it sits at offset exactly 32 strip the 32-character
prefix as the IV (normalizing it) and then, if a further `':'` exists, skip
everything up to and including it (the ignored client id). -/
def extractFramed (ivec data : List Nat) (isBase64 : Bool) : List Nat × List Nat :=
  if ivec = [] ∧ isBase64 then
    match List.findIdx? (fun c => c == DATA_DELIMITER) data with
    | some pos =>
      if pos = 32 then
        let ivec1 := normalizeHex (data.take pos)
        let data1 := data.drop (pos + 1)
        match List.findIdx? (fun c => c == DATA_DELIMITER) data1 with
        | some pos2 => (ivec1, data1.drop (pos2 + 1))
        | none => (ivec1, data1)
      else (ivec, data)
    | none => (ivec, data)
  else (ivec, data)

/-- Model of `Ripe::decryptAES(data, hexKey, ivec, isBase64, isHex)`
(Ripe.cc:332-363): framed-field extraction, condensed-IV normalization
(a no-op after extraction, which already normalized the 32-character field
to 47 characters), `byteToVec` conversion of the IV text, optional Base64
and hex decoding of the remaining data, then the byte-level decryption with
`hexToString(hexKey)` and key size `hexKey.size() / 2`. -/
def decryptAES (D : BlockFn) (data hexKey ivec : List Nat) (isBase64 isHex : Bool) :
    Except String (List Nat) :=
  let p := extractFramed ivec data isBase64
  let ivec2 := if p.1.length = 32 then normalizeHex p.1 else p.1
  let ivHex := byteToVec ivec2
  let data2 := if isBase64 then base64Decode p.2 else p.2
  let data3 := if isHex then hexToString data2 else data2
  decryptAESRaw D data3 (keyFromHex hexKey) (hexKey.length / 2) ivHex

/-- Model of `Ripe::generateNewKey` (Ripe.cc:252-265): reject lengths other
than 16, 24, 32; otherwise draw `length` random bytes (modelled by the
random pool parameter `rnd`) and return their uppercase hex encoding. -/
def generateNewKey (length : Nat) (rnd : List Nat) : Except String (List Nat) :=
  if ¬ (length = 16 ∨ length = 24 ∨ length = 32) then
    .error "Invalid key length. Acceptable lengths are 16, 24 or 32"
  else .ok (stringToHex (rnd.take length))

/-! ## Size arithmetic (Ripe.cc:550-557 and include/Ripe.h) -/

/-- Modelled from the spec: `Ripe::expectedAESCipherLength` is declared
inline in `include/Ripe.h`, which is not under src/; the spec gives
`((plainLen / 16) + 1) * 16`. -/
def expectedAESCipherLength (plainLen : Nat) : Nat := (plainLen / 16 + 1) * 16

/-- Modelled from the spec: `Ripe::expectedBase64Length` is declared inline
in `include/Ripe.h`, which is not under src/; the spec gives
`((rawLen + 2) / 3) * 4`. -/
def expectedBase64Length (rawLen : Nat) : Nat := ((rawLen + 2) / 3) * 4

/-- Model of `Ripe::expectedDataSize` (Ripe.cc:550-557); `sizeof
(DATA_DELIMITER)` is `sizeof(char) = 1`. -/
def expectedDataSize (plainDataSize clientIdSize : Nat) : Nat :=
  32 + 1 + (if clientIdSize > 0 then clientIdSize + 1 else 0)
    + expectedBase64Length (expectedAESCipherLength plainDataSize)
    + PACKET_DELIMITER_SIZE

/-! ## RSA verification (Ripe.cc:132-146)

RSA itself is an external collaborator; what the repository contributes is
the control flow: a public key that fails to load or validate raises, while
the `SignatureVerificationFilter` (default flags, `PUT_RESULT`) writes the
boolean outcome into `result` and never throws on a mismatching or malformed
signature.  The collaborator is modelled by its interface: a loader mapping
PEM text to a validated key handle (`none` = load/validation failure) and a
boolean verifier consuming the decoded-signature-then-data stream. -/

/-- Interface of the RSA collaborator used by `Ripe::verifyRSA`. -/
structure RSAVerifyModel where
  loadPublicKey : List Nat → Option (List Nat)
  verify : List Nat → List Nat → Bool

/-- Model of `Ripe::verifyRSA` (Ripe.cc:132-146): load and validate the key
(throwing `invalid_argument` on failure), hex-decode the signature, then
return the filter's boolean verdict. -/
def verifyRSA (R : RSAVerifyModel) (data signatureHex publicKeyPEM : List Nat) :
    Except String Bool :=
  match R.loadPublicKey publicKeyPEM with
  | none => .error "Could not load public key"
  | some key => .ok (R.verify key (hexToString signatureHex ++ data))

/-! ## zlib compression (Ripe.cc:389-466)

zlib is an external collaborator.  `Ripe::compressString` initializes a
deflate stream (throwing on failure), then loops pulling output chunks of at
most `ZLIB_BUFFER_SIZE` bytes, appending to `outstring` exactly the
`total_out - outstring.size()` new bytes each round, until the return code
leaves `Z_OK`; it throws unless that final code is `Z_STREAM_END`.  The
collaborator is modelled by its interface: whether stream initialization
succeeds, and the chunk sequence the stream emits for a given input
(`none` = the stream never reaches `Z_STREAM_END`). -/

/-- Interface of the zlib collaborator used by `Ripe::compressString` /
`Ripe::decompressString`. -/
structure ZlibModel where
  deflateInitOk : Bool
  inflateInitOk : Bool
  deflateChunks : List Nat → Option (List (List Nat))
  inflateChunks : List Nat → Option (List (List Nat))

/-- Model of `Ripe::compressString` (Ripe.cc:389-427): the accumulated
output is the concatenation of the emitted chunks. -/
def compressString (Z : ZlibModel) (str : List Nat) : Except String (List Nat) :=
  if ¬ Z.deflateInitOk then .error "Unable to initialize zlib deflate"
  else
    match Z.deflateChunks str with
    | none => .error "Exception during zlib compression"
    | some chunks => .ok chunks.flatten

/-- Model of `Ripe::decompressString` (Ripe.cc:429-466). -/
def decompressString (Z : ZlibModel) (str : List Nat) : Except String (List Nat) :=
  if ¬ Z.inflateInitOk then .error "Unable to initialize zlib inflate"
  else
    match Z.inflateChunks str with
    | none => .error "Exception during zlib decompression"
    | some chunks => .ok chunks.flatten

/-! ## Character-class facts -/

theorem hexVal_hexDigitLower_fin : ∀ x : Fin 16, hexVal (hexDigitLower x.val) = some x.val := by
  decide

theorem hexVal_hexDigitLower {x : Nat} (h : x < 16) : hexVal (hexDigitLower x) = some x :=
  hexVal_hexDigitLower_fin ⟨x, h⟩

theorem isStreamWs_hexDigitLower_fin : ∀ x : Fin 16, isStreamWs (hexDigitLower x.val) = false := by
  decide

theorem isStreamWs_hexDigitLower {x : Nat} (h : x < 16) : isStreamWs (hexDigitLower x) = false :=
  isStreamWs_hexDigitLower_fin ⟨x, h⟩

theorem hexDigitLower_ne_colon_fin :
    ∀ x : Fin 16, (hexDigitLower x.val == DATA_DELIMITER) = false := by
  decide

theorem hexDigitLower_ne_colon {x : Nat} (h : x < 16) :
    (hexDigitLower x == DATA_DELIMITER) = false :=
  hexDigitLower_ne_colon_fin ⟨x, h⟩

theorem hexVal_space : hexVal 32 = none := by decide

theorem b64Val_b64Char_fin : ∀ i : Fin 64, b64Val (b64Char i.val) = some i.val := by
  decide

theorem b64Val_b64Char {i : Nat} (h : i < 64) : b64Val (b64Char i) = some i :=
  b64Val_b64Char_fin ⟨i, h⟩

theorem b64Val_eq : b64Val 61 = none ∧ b64Val 13 = none ∧ b64Val 10 = none := by
  decide

theorem b64Char_mem_alphabet (j : Nat) : b64Char j ∈ BASE64_ALPHABET := by
  unfold b64Char
  rcases Nat.lt_or_ge j BASE64_ALPHABET.length with h | h
  · rw [List.getD_eq_getElem _ _ h]
    exact List.getElem_mem h
  · rw [List.getD_eq_default _ _ h]
    decide

theorem alphabet_ne_colon : ∀ a ∈ BASE64_ALPHABET, (a == DATA_DELIMITER) = false := by
  decide

theorem b64Char_ne_colon (j : Nat) : (b64Char j == DATA_DELIMITER) = false :=
  alphabet_ne_colon _ (b64Char_mem_alphabet j)

/-! ## Base64 lemmas -/

theorem base64Encode_no_colon (bs : List Nat) :
    ∀ c ∈ base64Encode bs, (c == DATA_DELIMITER) = false := by
  match bs with
  | [] => intro c hc; simp [base64Encode] at hc
  | [b1] =>
    intro c hc
    simp only [base64Encode, List.mem_cons, List.not_mem_nil, or_false] at hc
    rcases hc with rfl | rfl | rfl | rfl
    · exact b64Char_ne_colon _
    · exact b64Char_ne_colon _
    · decide
    · decide
  | [b1, b2] =>
    intro c hc
    simp only [base64Encode, List.mem_cons, List.not_mem_nil, or_false] at hc
    rcases hc with rfl | rfl | rfl | rfl
    · exact b64Char_ne_colon _
    · exact b64Char_ne_colon _
    · exact b64Char_ne_colon _
    · decide
  | b1 :: b2 :: b3 :: bs =>
    intro c hc
    simp only [base64Encode, List.mem_cons] at hc
    rcases hc with rfl | rfl | rfl | rfl | h
    · exact b64Char_ne_colon _
    · exact b64Char_ne_colon _
    · exact b64Char_ne_colon _
    · exact b64Char_ne_colon _
    · exact base64Encode_no_colon bs c h

/-- Decoding inverts encoding on byte inputs, with the decoding lookup
discarding the padding characters. -/
theorem decode_filterMap_encode (bs : List Nat) (h : ∀ b ∈ bs, b < 256) :
    decodeQuads (List.filterMap b64Val (base64Encode bs)) = bs := by
  match bs with
  | [] => simp [base64Encode, decodeQuads]
  | [b1] =>
    have hb1 : b1 < 256 := h b1 (by simp)
    simp only [base64Encode, List.filterMap_cons,
      b64Val_b64Char (show b1 / 4 < 64 by omega),
      b64Val_b64Char (show b1 % 4 * 16 < 64 by omega),
      b64Val_eq.1, List.filterMap_nil, decodeQuads]
    simp only [List.cons.injEq, and_true]
    omega
  | [b1, b2] =>
    have hb1 : b1 < 256 := h b1 (by simp)
    have hb2 : b2 < 256 := h b2 (by simp)
    simp only [base64Encode, List.filterMap_cons,
      b64Val_b64Char (show b1 / 4 < 64 by omega),
      b64Val_b64Char (show b1 % 4 * 16 + b2 / 16 < 64 by omega),
      b64Val_b64Char (show b2 % 16 * 4 < 64 by omega),
      b64Val_eq.1, List.filterMap_nil, decodeQuads]
    simp only [List.cons.injEq, and_true]
    constructor
    · omega
    · omega
  | b1 :: b2 :: b3 :: bs =>
    have hb1 : b1 < 256 := h b1 (by simp)
    have hb2 : b2 < 256 := h b2 (by simp)
    have hb3 : b3 < 256 := h b3 (by simp)
    have ih := decode_filterMap_encode bs (fun b hb => h b (by simp [hb]))
    simp only [base64Encode, List.filterMap_cons,
      b64Val_b64Char (show b1 / 4 < 64 by omega),
      b64Val_b64Char (show b1 % 4 * 16 + b2 / 16 < 64 by omega),
      b64Val_b64Char (show b2 % 16 * 4 + b3 / 64 < 64 by omega),
      b64Val_b64Char (show b3 % 64 < 64 by omega),
      decodeQuads, ih, List.cons.injEq, and_true]
    refine ⟨by omega, by omega, by omega⟩

/-- Appended characters outside the Base64 alphabet do not change the
decoded bytes. -/
theorem base64Decode_append_junk (s junk : List Nat)
    (hj : ∀ c ∈ junk, b64Val c = none) :
    base64Decode (s ++ junk) = base64Decode s := by
  unfold base64Decode
  rw [List.filterMap_append, List.filterMap_eq_nil_iff.mpr hj, List.append_nil]

/-- Round trip: decoding an encoded byte string followed by arbitrary
non-alphabet characters recovers the bytes. -/
theorem base64Decode_encode_junk (bs junk : List Nat) (h : ∀ b ∈ bs, b < 256)
    (hj : ∀ c ∈ junk, b64Val c = none) :
    base64Decode (base64Encode bs ++ junk) = bs := by
  rw [base64Decode_append_junk _ _ hj]
  exact decode_filterMap_encode bs h

/-- The exact output size of the Base64 encoder. -/
theorem base64Encode_length (bs : List Nat) :
    (base64Encode bs).length = (bs.length + 2) / 3 * 4 := by
  match bs with
  | [] => simp [base64Encode]
  | [b1] => simp [base64Encode]
  | [b1, b2] => simp [base64Encode]
  | b1 :: b2 :: b3 :: bs =>
    have ih := base64Encode_length bs
    simp only [base64Encode, List.length_cons, ih]
    omega

/-! ## Hex-string and IV lemmas -/

theorem vecToString_length (iv : List Nat) : (vecToString iv).length = 2 * iv.length := by
  induction iv with
  | nil => simp [vecToString]
  | cons b bs ih =>
    simp only [vecToString, List.map_cons, List.flatten_cons, List.length_append,
      List.length_cons, List.length_nil, List.length_cons] at ih ⊢
    omega

theorem vecToString_no_colon (iv : List Nat) (h : ∀ b ∈ iv, b < 256) :
    ∀ c ∈ vecToString iv, (c == DATA_DELIMITER) = false := by
  intro c hc
  simp only [vecToString, List.mem_flatten, List.mem_map] at hc
  obtain ⟨l, ⟨b, hb, rfl⟩, hcl⟩ := hc
  have hb' := h b hb
  simp only [List.mem_cons, List.not_mem_nil, or_false] at hcl
  rcases hcl with rfl | rfl
  · exact hexDigitLower_ne_colon (by omega)
  · exact hexDigitLower_ne_colon (by omega)

theorem insertAt_length (j x : Nat) (l : List Nat) :
    (insertAt j x l).length = l.length + 1 := by
  match j, l with
  | 0, l => simp [insertAt]
  | n + 1, [] => simp [insertAt]
  | n + 1, a :: l => simp [insertAt, insertAt_length n x l]

/-- The space-insertion loop turns a 32-character field into 47 characters,
so the redundant second `normalizeHex` guard at Ripe.cc:348-351 never fires
on an extracted IV field. -/
theorem normalizeHex_length_of32 (s : List Nat) (h : s.length = 32) :
    (normalizeHex s).length = 47 := by
  rw [normalizeHex, if_pos h]
  simp [insertSpacesAux, insertAt_length, h]

/-- Proof gadget (not from the source): the shape of a hex IV field after
space insertion — sixteen lower-case hex digit pairs separated by single
spaces. -/
def spacedHexPairs : List Nat → List Nat
  | [] => []
  | [b] => [hexDigitLower (b / 16), hexDigitLower (b % 16)]
  | b :: bs => hexDigitLower (b / 16) :: hexDigitLower (b % 16) :: 32 :: spacedHexPairs bs

theorem spacedHexPairs_length_ge (bs : List Nat) :
    bs.length ≤ (spacedHexPairs bs).length := by
  match bs with
  | [] => simp [spacedHexPairs]
  | [b] => simp [spacedHexPairs]
  | b :: b2 :: bs =>
    have := spacedHexPairs_length_ge (b2 :: bs)
    simp only [spacedHexPairs, List.length_cons] at this ⊢
    omega

/-- On a 32-character hex rendering of a 16-byte IV, the `normalizeHex`
insertion loop produces exactly the space-separated digit pairs. -/
theorem normalizeHex_vecToString (iv : List Nat) (h : iv.length = 16) :
    normalizeHex (vecToString iv) = spacedHexPairs iv := by
  obtain ⟨b0, iv, rfl⟩ := List.exists_of_length_succ iv h
  have h : iv.length = 15 := by simp at h; omega
  obtain ⟨b1, iv, rfl⟩ := List.exists_of_length_succ iv h
  have h : iv.length = 14 := by simp at h; omega
  obtain ⟨b2, iv, rfl⟩ := List.exists_of_length_succ iv h
  have h : iv.length = 13 := by simp at h; omega
  obtain ⟨b3, iv, rfl⟩ := List.exists_of_length_succ iv h
  have h : iv.length = 12 := by simp at h; omega
  obtain ⟨b4, iv, rfl⟩ := List.exists_of_length_succ iv h
  have h : iv.length = 11 := by simp at h; omega
  obtain ⟨b5, iv, rfl⟩ := List.exists_of_length_succ iv h
  have h : iv.length = 10 := by simp at h; omega
  obtain ⟨b6, iv, rfl⟩ := List.exists_of_length_succ iv h
  have h : iv.length = 9 := by simp at h; omega
  obtain ⟨b7, iv, rfl⟩ := List.exists_of_length_succ iv h
  have h : iv.length = 8 := by simp at h; omega
  obtain ⟨b8, iv, rfl⟩ := List.exists_of_length_succ iv h
  have h : iv.length = 7 := by simp at h; omega
  obtain ⟨b9, iv, rfl⟩ := List.exists_of_length_succ iv h
  have h : iv.length = 6 := by simp at h; omega
  obtain ⟨b10, iv, rfl⟩ := List.exists_of_length_succ iv h
  have h : iv.length = 5 := by simp at h; omega
  obtain ⟨b11, iv, rfl⟩ := List.exists_of_length_succ iv h
  have h : iv.length = 4 := by simp at h; omega
  obtain ⟨b12, iv, rfl⟩ := List.exists_of_length_succ iv h
  have h : iv.length = 3 := by simp at h; omega
  obtain ⟨b13, iv, rfl⟩ := List.exists_of_length_succ iv h
  have h : iv.length = 2 := by simp at h; omega
  obtain ⟨b14, iv, rfl⟩ := List.exists_of_length_succ iv h
  have h : iv.length = 1 := by simp at h; omega
  obtain ⟨b15, iv, rfl⟩ := List.exists_of_length_succ iv h
  have hnil : iv = [] := by simpa using h
  subst hnil
  rfl

theorem byteToVecAux_nil (fuel : Nat) : byteToVecAux fuel [] = [] := by
  cases fuel <;> simp [byteToVecAux, takeHexRun]

theorem takeHexRun_some {c : Nat} (cs : List Nat) {d : Nat} (hc : hexVal c = some d) :
    takeHexRun (c :: cs) = (d :: (takeHexRun cs).1, (takeHexRun cs).2) := by
  simp [takeHexRun, hc]

theorem takeHexRun_none {c : Nat} (cs : List Nat) (hc : hexVal c = none) :
    takeHexRun (c :: cs) = ([], c :: cs) := by
  simp [takeHexRun, hc]

theorem byteToVecAux_ws (fuel c : Nat) (s : List Nat) (hc : isStreamWs c = true) :
    byteToVecAux fuel (c :: s) = byteToVecAux fuel s := by
  cases fuel with
  | zero => rfl
  | succ f => simp only [byteToVecAux, List.dropWhile_cons, hc, if_true]

/-- `byteToVec` parses the space-separated hex pairs back to the bytes. -/
theorem byteToVecAux_spaced (bs : List Nat) (fuel : Nat) (hf : bs.length ≤ fuel)
    (hb : ∀ b ∈ bs, b < 256) : byteToVecAux fuel (spacedHexPairs bs) = bs := by
  match bs, fuel with
  | [], fuel =>
    simpa [spacedHexPairs] using byteToVecAux_nil fuel
  | [b], fuel + 1 =>
    have hb1 : b < 256 := hb b (by simp)
    have hda : b / 16 < 16 := by omega
    have hdb : b % 16 < 16 := by omega
    simp [spacedHexPairs, byteToVecAux, takeHexRun,
      isStreamWs_hexDigitLower hda, hexVal_hexDigitLower hda,
      hexVal_hexDigitLower hdb, hexFold, byteToVecAux_nil]
    omega
  | b :: b2 :: bs, fuel + 1 =>
    have hb1 : b < 256 := hb b (by simp)
    have hda : b / 16 < 16 := by omega
    have hdb : b % 16 < 16 := by omega
    have ih : byteToVecAux fuel (spacedHexPairs (b2 :: bs)) = b2 :: bs := by
      refine byteToVecAux_spaced (b2 :: bs) fuel ?_ ?_
      · simp at hf ⊢; omega
      · intro x hx; exact hb x (by simp at hx ⊢; tauto)
    have hws : byteToVecAux fuel (32 :: spacedHexPairs (b2 :: bs))
        = byteToVecAux fuel (spacedHexPairs (b2 :: bs)) :=
      byteToVecAux_ws fuel 32 _ (by decide)
    simp [spacedHexPairs, byteToVecAux, takeHexRun,
      isStreamWs_hexDigitLower hda, hexVal_hexDigitLower hda,
      hexVal_hexDigitLower hdb, hexVal_space, hexFold, hws, ih]
    omega

/-- Composite: hex-encoding a 16-byte IV, normalizing, and stream-parsing
recovers the IV bytes (the Ripe.cc:338-354 pipeline). -/
theorem byteToVec_normalizeHex_vecToString (iv : List Nat) (h16 : iv.length = 16)
    (hb : ∀ b ∈ iv, b < 256) : byteToVec (normalizeHex (vecToString iv)) = iv := by
  rw [normalizeHex_vecToString iv h16, byteToVec]
  exact byteToVecAux_spaced iv _ (h16 ▸ spacedHexPairs_length_ge iv) hb

/-! ## Block, CBC and padding lemmas -/

theorem toBlocksAux_nil (fuel : Nat) : toBlocksAux fuel [] = [] := by
  cases fuel <;> simp [toBlocksAux]

/-- Splitting a concatenation of 16-byte blocks recovers the blocks. -/
theorem toBlocksAux_flatten (bs : List (List Nat)) (fuel : Nat)
    (hlen : ∀ b ∈ bs, b.length = 16) (hf : bs.flatten.length ≤ fuel) :
    toBlocksAux fuel bs.flatten = bs := by
  match bs with
  | [] => simpa using toBlocksAux_nil fuel
  | b :: bs =>
    have hb : b.length = 16 := hlen b (by simp)
    have hne : ¬ (b ++ bs.flatten = []) := by
      intro hc
      have hbnil : b = [] := (List.append_eq_nil.mp hc).1
      simp [hbnil] at hb
    have hflen : (b :: bs).flatten.length = 16 + bs.flatten.length := by
      simp [List.flatten_cons, hb]
    cases fuel with
    | zero => omega
    | succ f =>
      simp only [List.flatten_cons, toBlocksAux, if_neg hne]
      rw [List.take_left' hb, List.drop_left' hb]
      have ih := toBlocksAux_flatten bs f (fun x hx => hlen x (by simp [hx])) (by omega)
      rw [ih]

/-- Splitting a block-aligned byte string yields 16-byte blocks whose
concatenation is the input. -/
theorem toBlocksAux_aligned (fuel : Nat) : ∀ l : List Nat, l.length ≤ fuel →
    l.length % 16 = 0 →
    (∀ b ∈ toBlocksAux fuel l, b.length = 16) ∧ (toBlocksAux fuel l).flatten = l := by
  induction fuel with
  | zero =>
    intro l hf _
    have : l = [] := List.length_eq_zero.mp (by omega)
    subst this
    simp [toBlocksAux]
  | succ f ih =>
    intro l hf h16
    by_cases hl : l = []
    · subst hl; simp [toBlocksAux]
    · have hpos : 0 < l.length := List.length_pos.mpr hl
      have h16le : 16 ≤ l.length := by omega
      have ht : (l.take 16).length = 16 := by simp [List.length_take]; omega
      have hd : (l.drop 16).length = l.length - 16 := by simp
      obtain ⟨ihA, ihB⟩ := ih (l.drop 16) (by omega) (by omega)
      simp only [toBlocksAux, if_neg hl]
      refine ⟨?_, ?_⟩
      · intro b hb
        rcases List.mem_cons.mp hb with rfl | hb'
        · exact ht
        · exact ihA b hb'
      · simp only [List.flatten_cons, ihB, List.take_append_drop]

theorem flatten_length_16 (bs : List (List Nat)) (h : ∀ b ∈ bs, b.length = 16) :
    bs.flatten.length = 16 * bs.length := by
  induction bs with
  | nil => simp
  | cons b bs ih =>
    have := h b (by simp)
    simp only [List.flatten_cons, List.length_append, List.length_cons, this,
      ih (fun x hx => h x (by simp [hx]))]
    omega

theorem xor_lt_256 {x y : Nat} (hx : x < 256) (hy : y < 256) : x ^^^ y < 256 := by
  have h1 : x < 2 ^ 8 := by simpa using hx
  have h2 : y < 2 ^ 8 := by simpa using hy
  simpa using Nat.xor_lt_two_pow h1 h2

theorem length_xorBlock (a b : List Nat) :
    (xorBlock a b).length = min a.length b.length := by
  simp [xorBlock]

theorem xorBlock_lt (a b : List Nat) (ha : ∀ x ∈ a, x < 256) (hb : ∀ x ∈ b, x < 256) :
    ∀ x ∈ xorBlock a b, x < 256 := by
  induction a generalizing b with
  | nil => intro x hx; simp [xorBlock] at hx
  | cons a as ih =>
    intro x hx
    cases b with
    | nil => simp [xorBlock] at hx
    | cons b bs =>
      simp only [xorBlock, List.zipWith_cons_cons, List.mem_cons] at hx
      rcases hx with rfl | hx'
      · exact xor_lt_256 (ha a (by simp)) (hb b (by simp))
      · exact ih bs (fun y hy => ha y (by simp [hy]))
          (fun y hy => hb y (by simp [hy])) x hx'

theorem xorBlock_xorBlock (b prev : List Nat) (h : b.length = prev.length) :
    xorBlock (xorBlock b prev) prev = b := by
  induction b generalizing prev with
  | nil => simp [xorBlock]
  | cons x xs ih =>
    cases prev with
    | nil => simp at h
    | cons p ps =>
      simp only [xorBlock, List.zipWith_cons_cons] at *
      have hxc : Nat.xor (Nat.xor x p) p = x := Nat.xor_cancel_right p x
      rw [hxc, ih ps (by simp at h; omega)]

theorem cbcEnc_length16 (E : BlockFn) (k : List Nat)
    (hE1 : ∀ key b, b.length = 16 → (E key b).length = 16) :
    ∀ (blocks : List (List Nat)) (prev : List Nat),
      (∀ b ∈ blocks, b.length = 16) → prev.length = 16 →
      ∀ c ∈ cbcEnc E k prev blocks, c.length = 16 := by
  intro blocks
  induction blocks with
  | nil => intro prev _ _ c hc; simp [cbcEnc] at hc
  | cons b bs ih =>
    intro prev hb hprev c hc
    have hb16 : b.length = 16 := hb b (by simp)
    have hx : (xorBlock b prev).length = 16 := by
      rw [length_xorBlock, hb16, hprev]; simp
    simp only [cbcEnc, List.mem_cons] at hc
    rcases hc with rfl | hc'
    · exact hE1 k _ hx
    · exact ih (E k (xorBlock b prev)) (fun x hxm => hb x (by simp [hxm]))
        (hE1 k _ hx) c hc'

/-- CBC decryption inverts CBC encryption, block by block, given the block
cipher inverse law. -/
theorem cbcDec_cbcEnc (E D : BlockFn) (k : List Nat)
    (hE1 : ∀ key b, b.length = 16 → (E key b).length = 16)
    (hE2 : ∀ key b x, x ∈ E key b → x < 256)
    (hD : ∀ key b, b.length = 16 → (∀ x ∈ b, x < 256) → D key (E key b) = b) :
    ∀ (blocks : List (List Nat)) (prev : List Nat),
      (∀ b ∈ blocks, b.length = 16 ∧ ∀ x ∈ b, x < 256) →
      prev.length = 16 → (∀ x ∈ prev, x < 256) →
      cbcDec D k prev (cbcEnc E k prev blocks) = blocks := by
  intro blocks
  induction blocks with
  | nil => intro prev _ _ _; simp [cbcEnc, cbcDec]
  | cons b bs ih =>
    intro prev hblocks hprev hprevB
    obtain ⟨hb16, hbB⟩ := hblocks b (by simp)
    have hxlen : (xorBlock b prev).length = 16 := by
      rw [length_xorBlock, hb16, hprev]; simp
    have hxB : ∀ x ∈ xorBlock b prev, x < 256 := xorBlock_lt _ _ hbB hprevB
    simp only [cbcEnc, cbcDec, List.cons.injEq]
    refine ⟨?_, ?_⟩
    · rw [hD k _ hxlen hxB]
      exact xorBlock_xorBlock b prev (by omega)
    · exact ih (E k (xorBlock b prev))
        (fun x hxm => hblocks x (by simp [hxm]))
        (hE1 k _ hxlen) (fun x hxm => hE2 k _ x hxm)

/-! ## PKCS#7 padding lemmas -/

theorem pkcs7Pad_length (data : List Nat) :
    (pkcs7Pad data).length = (data.length / 16 + 1) * 16 := by
  simp [pkcs7Pad]
  omega

theorem pkcs7Pad_aligned (data : List Nat) : (pkcs7Pad data).length % 16 = 0 := by
  rw [pkcs7Pad_length]
  omega

theorem pkcs7Pad_bytes (data : List Nat) (h : ∀ x ∈ data, x < 256) :
    ∀ x ∈ pkcs7Pad data, x < 256 := by
  intro x hx
  rcases List.mem_append.mp hx with hx' | hx'
  · exact h x hx'
  · obtain ⟨-, rfl⟩ := List.mem_replicate.mp hx'
    omega

/-- Unpadding an arbitrary byte string extended by a valid padding block
recovers the byte string. -/
theorem pkcs7Unpad_append_replicate (data : List Nat) (m : Nat)
    (h1 : 1 ≤ m) (h16 : m ≤ 16) :
    pkcs7Unpad (data ++ List.replicate m m) = .ok data := by
  have hlen : (data ++ List.replicate m m).length = data.length + m := by simp
  have hlast : (data ++ List.replicate m m).getLast? = some m := by
    rw [List.getLast?_append, List.getLast?_replicate]
    rw [if_neg (by omega : ¬ m = 0)]
    rfl
  have hsub : (data ++ List.replicate m m).length - m = data.length := by omega
  simp only [pkcs7Unpad, hlast]
  have hcond : 1 ≤ m ∧ m ≤ 16 ∧ m ≤ (data ++ List.replicate m m).length ∧
      ((data ++ List.replicate m m).drop ((data ++ List.replicate m m).length - m)).all
        (fun x => x == m) := by
    refine ⟨h1, h16, by omega, ?_⟩
    rw [hsub, List.drop_left]
    simp
  rw [if_pos hcond, hsub, List.take_left]

/-- Unpadding inverts padding. -/
theorem pkcs7Unpad_pad (data : List Nat) : pkcs7Unpad (pkcs7Pad data) = .ok data := by
  unfold pkcs7Pad
  exact pkcs7Unpad_append_replicate data _ (by omega) (by omega)

/-- Decrypting (at the byte level) what the byte-level encryption produced
recovers the plaintext, under the AES block-cipher contract. -/
theorem decryptAESRaw_encrypt (E D : BlockFn) (k : List Nat) (keySize : Nat)
    (hE1 : ∀ key b, b.length = 16 → (E key b).length = 16)
    (hE2 : ∀ key b x, x ∈ E key b → x < 256)
    (hD : ∀ key b, b.length = 16 → (∀ x ∈ b, x < 256) → D key (E key b) = b)
    (P iv : List Nat) (hP : ∀ x ∈ P, x < 256)
    (hiv : iv.length = 16) (hivB : ∀ x ∈ iv, x < 256)
    (hks : validKeySize keySize = true) :
    decryptAESRaw D (cbcEnc E k iv (toBlocks (pkcs7Pad P))).flatten k keySize iv
      = .ok P := by
  obtain ⟨hB16, hBflat⟩ :=
    toBlocksAux_aligned (pkcs7Pad P).length (pkcs7Pad P) (Nat.le_refl _)
      (pkcs7Pad_aligned P)
  have hB16' : ∀ b ∈ toBlocks (pkcs7Pad P), b.length = 16 := hB16
  have hBflat' : (toBlocks (pkcs7Pad P)).flatten = pkcs7Pad P := hBflat
  have hBbytes : ∀ b ∈ toBlocks (pkcs7Pad P), ∀ x ∈ b, x < 256 := by
    intro b hb x hx
    have hxP : x ∈ (toBlocks (pkcs7Pad P)).flatten := List.mem_flatten.mpr ⟨b, hb, hx⟩
    rw [hBflat'] at hxP
    exact pkcs7Pad_bytes P hP x hxP
  have hencB : ∀ c ∈ cbcEnc E k iv (toBlocks (pkcs7Pad P)), c.length = 16 :=
    cbcEnc_length16 E k hE1 _ iv hB16' hiv
  have hflen : (cbcEnc E k iv (toBlocks (pkcs7Pad P))).flatten.length
      = 16 * (cbcEnc E k iv (toBlocks (pkcs7Pad P))).length :=
    flatten_length_16 _ hencB
  have hivArr : List.take 16 iv ++ List.replicate (16 - iv.length) 0 = iv := by
    rw [hiv]
    simp [← hiv, List.take_length]
  have halign : (cbcEnc E k iv (toBlocks (pkcs7Pad P))).flatten.length % 16 = 0 := by
    rw [hflen]; omega
  have htb : toBlocks (cbcEnc E k iv (toBlocks (pkcs7Pad P))).flatten
      = cbcEnc E k iv (toBlocks (pkcs7Pad P)) :=
    toBlocksAux_flatten _ _ hencB (Nat.le_refl _)
  have hdec : cbcDec D k iv (cbcEnc E k iv (toBlocks (pkcs7Pad P)))
      = toBlocks (pkcs7Pad P) :=
    cbcDec_cbcEnc E D k hE1 hE2 hD _ iv
      (fun b hb => ⟨hB16' b hb, hBbytes b hb⟩) hiv hivB
  simp only [decryptAESRaw, hivArr, hks, halign, if_true, reduceIte, htb, hdec, hBflat']
  exact pkcs7Unpad_pad P

/-! ## Packet parsing lemmas -/

theorem findIdx?_no_match_append (a b : List Nat) (p : Nat → Bool)
    (ha : ∀ c ∈ a, p c = false) :
    List.findIdx? p (a ++ b) = (List.findIdx? p b).map (fun i => i + a.length) := by
  rw [List.findIdx?_append, List.findIdx?_eq_none_iff.mpr ha]
  simp

theorem findIdx?_colon_at (a rest : List Nat)
    (ha : ∀ c ∈ a, (c == DATA_DELIMITER) = false) :
    List.findIdx? (fun c => c == DATA_DELIMITER) (a ++ DATA_DELIMITER :: rest)
      = some a.length := by
  rw [findIdx?_no_match_append a _ _ ha]
  simp [List.findIdx?_cons]

theorem findIdx?_no_colon (a : List Nat)
    (ha : ∀ c ∈ a, (c == DATA_DELIMITER) = false) :
    List.findIdx? (fun c => c == DATA_DELIMITER) a = none :=
  List.findIdx?_eq_none_iff.mpr ha

/-- Parsing a framed blob with no identifier field: the 32-character prefix
is stripped and normalized, the rest — colon-free — is left whole. -/
theorem extractFramed_no_id (ivh tail : List Nat)
    (h32 : ivh.length = 32)
    (hivh : ∀ c ∈ ivh, (c == DATA_DELIMITER) = false)
    (htail : ∀ c ∈ tail, (c == DATA_DELIMITER) = false) :
    extractFramed [] (ivh ++ DATA_DELIMITER :: tail) true
      = (normalizeHex ivh, tail) := by
  have hfind : List.findIdx? (fun c => c == DATA_DELIMITER) (ivh ++ DATA_DELIMITER :: tail)
      = some 32 := by
    rw [findIdx?_colon_at ivh tail hivh, h32]
  have htake : (ivh ++ DATA_DELIMITER :: tail).take 32 = ivh := List.take_left' h32
  have hdrop : (ivh ++ DATA_DELIMITER :: tail).drop 33 = tail := by
    rw [show ivh ++ DATA_DELIMITER :: tail = (ivh ++ [DATA_DELIMITER]) ++ tail by simp]
    exact List.drop_left' (by simp [h32])
  simp [extractFramed, hfind, htake, hdrop, findIdx?_no_colon tail htail]

/-- Parsing a framed blob with an identifier field: the identifier is
skipped wholesale, leaving only the field after its delimiter. -/
theorem extractFramed_with_id (ivh cid rest : List Nat)
    (h32 : ivh.length = 32)
    (hivh : ∀ c ∈ ivh, (c == DATA_DELIMITER) = false)
    (hcid : ∀ c ∈ cid, (c == DATA_DELIMITER) = false) :
    extractFramed [] (ivh ++ DATA_DELIMITER :: (cid ++ DATA_DELIMITER :: rest)) true
      = (normalizeHex ivh, rest) := by
  have hfind : List.findIdx? (fun c => c == DATA_DELIMITER)
      (ivh ++ DATA_DELIMITER :: (cid ++ DATA_DELIMITER :: rest)) = some 32 := by
    rw [findIdx?_colon_at ivh _ hivh, h32]
  have htake : (ivh ++ DATA_DELIMITER :: (cid ++ DATA_DELIMITER :: rest)).take 32 = ivh :=
    List.take_left' h32
  have hdrop : (ivh ++ DATA_DELIMITER :: (cid ++ DATA_DELIMITER :: rest)).drop 33
      = cid ++ DATA_DELIMITER :: rest := by
    rw [show ivh ++ DATA_DELIMITER :: (cid ++ DATA_DELIMITER :: rest)
        = (ivh ++ [DATA_DELIMITER]) ++ (cid ++ DATA_DELIMITER :: rest) by simp]
    exact List.drop_left' (by simp [h32])
  have hfind2 : List.findIdx? (fun c => c == DATA_DELIMITER) (cid ++ DATA_DELIMITER :: rest)
      = some cid.length := findIdx?_colon_at cid rest hcid
  have hdrop2 : (cid ++ DATA_DELIMITER :: rest).drop (cid.length + 1) = rest := by
    rw [show cid ++ DATA_DELIMITER :: rest = (cid ++ [DATA_DELIMITER]) ++ rest by simp]
    exact List.drop_left' (by simp)
  simp [extractFramed, hfind, htake, hdrop, hfind2, hdrop2]

/-- Every byte the CBC encryption emits comes out of the block cipher, so
it is a byte. -/
theorem cbcEnc_bytes (E : BlockFn) (k : List Nat)
    (hE2 : ∀ key b x, x ∈ E key b → x < 256) :
    ∀ (blocks : List (List Nat)) (prev : List Nat),
      ∀ c ∈ cbcEnc E k prev blocks, ∀ x ∈ c, x < 256 := by
  intro blocks
  induction blocks with
  | nil => intro prev c hc; simp [cbcEnc] at hc
  | cons b bs ih =>
    intro prev c hc
    simp only [cbcEnc, List.mem_cons] at hc
    rcases hc with rfl | hc'
    · exact fun x hx => hE2 k _ x hx
    · exact ih _ c hc'

theorem takeWhile_all {p : Nat → Bool} (l : List Nat) (h : ∀ c ∈ l, p c = true) :
    l.takeWhile p = l := by
  induction l with
  | nil => rfl
  | cons c cs ih =>
    rw [List.takeWhile_cons, if_pos (h c (by simp))]
    rw [ih (fun x hx => h x (by simp [hx]))]

/-- The packet the envelope builder emits, spelled out (it never fails once
the key size is valid). -/
theorem prepareData_ok (E : BlockFn) (ivArr data hexKey clientId : List Nat)
    (hks : validKeySize (hexKey.length / 2) = true) :
    prepareData E ivArr data hexKey clientId =
      .ok (vecToString ivArr ++ [DATA_DELIMITER]
        ++ (if (clientId.takeWhile (fun c => c ≠ 0)).length > 0
            then clientId.takeWhile (fun c => c ≠ 0) ++ [DATA_DELIMITER] else [])
        ++ base64Encode
            (cbcEnc E (keyFromHex hexKey) ivArr (toBlocks (pkcs7Pad data))).flatten
        ++ PACKET_DELIMITER) := by
  simp [prepareData, encryptAES, encryptAESRaw, hks]

/-- Once the framed-field extraction produced a normalized IV field and a
remaining field, the rest of the parser is determined: Base64-decode the
remainder and decrypt with the parsed IV bytes. -/
theorem decryptAES_of_extract (D : BlockFn) (pkt hexKey iv rest : List Nat)
    (hiv : iv.length = 16) (hivB : ∀ x ∈ iv, x < 256)
    (hex : extractFramed [] pkt true = (normalizeHex (vecToString iv), rest)) :
    decryptAES D pkt hexKey [] true false
      = decryptAESRaw D (base64Decode rest) (keyFromHex hexKey) (hexKey.length / 2) iv := by
  have h32 : (vecToString iv).length = 32 := by rw [vecToString_length, hiv]
  have h47 : (normalizeHex (vecToString iv)).length = 47 := normalizeHex_length_of32 _ h32
  have hbv : byteToVec (normalizeHex (vecToString iv)) = iv :=
    byteToVec_normalizeHex_vecToString iv hiv hivB
  simp [decryptAES, hex, h47, hbv]

/-- Round trip of the symmetric envelope: building a packet and parsing it
back with the same hex key recovers the plaintext, for any colon-free,
NUL-free identifier, under the AES block-cipher contract. -/
theorem prepare_decrypt_roundtrip (E D : BlockFn)
    (hE1 : ∀ key b, b.length = 16 → (E key b).length = 16)
    (hE2 : ∀ key b x, x ∈ E key b → x < 256)
    (hD : ∀ key b, b.length = 16 → (∀ x ∈ b, x < 256) → D key (E key b) = b)
    (P hexKey iv cid : List Nat)
    (hP : ∀ x ∈ P, x < 256)
    (hiv : iv.length = 16) (hivB : ∀ x ∈ iv, x < 256)
    (hks : validKeySize (hexKey.length / 2) = true)
    (hcid : ∀ c ∈ cid, (c == DATA_DELIMITER) = false ∧ c ≠ 0) :
    (prepareData E iv P hexKey cid).bind
      (fun pkt => decryptAES D pkt hexKey [] true false) = .ok P := by
  have hcidW : cid.takeWhile (fun c => c ≠ 0) = cid :=
    takeWhile_all cid (fun c hc => by simp [(hcid c hc).2])
  have hivh : ∀ c ∈ vecToString iv, (c == DATA_DELIMITER) = false :=
    vecToString_no_colon iv hivB
  have h32 : (vecToString iv).length = 32 := by rw [vecToString_length, hiv]
  have hcipherB : ∀ x ∈ (cbcEnc E (keyFromHex hexKey) iv (toBlocks (pkcs7Pad P))).flatten,
      x < 256 := by
    intro x hx
    obtain ⟨c, hc, hxc⟩ := List.mem_flatten.mp hx
    exact cbcEnc_bytes E _ hE2 _ _ c hc x hxc
  have hdelim : ∀ c ∈ PACKET_DELIMITER, b64Val c = none := by decide
  have hdecode : base64Decode
      (base64Encode (cbcEnc E (keyFromHex hexKey) iv (toBlocks (pkcs7Pad P))).flatten
        ++ PACKET_DELIMITER)
      = (cbcEnc E (keyFromHex hexKey) iv (toBlocks (pkcs7Pad P))).flatten :=
    base64Decode_encode_junk _ _ hcipherB hdelim
  have htailC : ∀ c ∈ base64Encode
      (cbcEnc E (keyFromHex hexKey) iv (toBlocks (pkcs7Pad P))).flatten
        ++ PACKET_DELIMITER, (c == DATA_DELIMITER) = false := by
    intro c hc
    rcases List.mem_append.mp hc with hc' | hc'
    · exact base64Encode_no_colon _ c hc'
    · have hpd : ∀ x ∈ PACKET_DELIMITER, (x == DATA_DELIMITER) = false := by decide
      exact hpd c hc'
  rw [prepareData_ok E iv P hexKey cid hks, hcidW]
  by_cases hcnil : cid.length = 0
  · have : cid = [] := List.length_eq_zero.mp hcnil
    subst this
    simp only [List.length_nil, gt_iff_lt, Nat.lt_irrefl, if_false, List.append_nil,
      List.nil_append, Except.bind]
    rw [show ((vecToString iv ++ [DATA_DELIMITER]
        ++ base64Encode (cbcEnc E (keyFromHex hexKey) iv (toBlocks (pkcs7Pad P))).flatten
        ++ PACKET_DELIMITER)) = vecToString iv ++ DATA_DELIMITER ::
            (base64Encode (cbcEnc E (keyFromHex hexKey) iv (toBlocks (pkcs7Pad P))).flatten
              ++ PACKET_DELIMITER) by simp]
    rw [decryptAES_of_extract D _ hexKey iv _ hiv hivB
      (extractFramed_no_id _ _ h32 hivh htailC)]
    rw [hdecode]
    exact decryptAESRaw_encrypt E D _ _ hE1 hE2 hD P iv hP hiv hivB hks
  · have hgt : cid.length > 0 := by omega
    simp only [gt_iff_lt, hgt, if_pos, Except.bind]
    rw [show (vecToString iv ++ [DATA_DELIMITER] ++ (cid ++ [DATA_DELIMITER])
        ++ base64Encode (cbcEnc E (keyFromHex hexKey) iv (toBlocks (pkcs7Pad P))).flatten
        ++ PACKET_DELIMITER) = vecToString iv ++ DATA_DELIMITER ::
            (cid ++ DATA_DELIMITER ::
              (base64Encode (cbcEnc E (keyFromHex hexKey) iv (toBlocks (pkcs7Pad P))).flatten
                ++ PACKET_DELIMITER)) by simp]
    rw [decryptAES_of_extract D _ hexKey iv _ hiv hivB
      (extractFramed_with_id _ _ _ h32 hivh (fun c hc => (hcid c hc).1))]
    rw [hdecode]
    exact decryptAESRaw_encrypt E D _ _ hE1 hE2 hD P iv hP hiv hivB hks

/-! ## Remaining support lemmas -/

theorem stringToHex_length (raw : List Nat) : (stringToHex raw).length = 2 * raw.length := by
  induction raw with
  | nil => simp [stringToHex]
  | cons b bs ih =>
    simp only [stringToHex, List.map_cons, List.flatten_cons, List.length_append,
      List.length_cons, List.length_nil] at ih ⊢
    omega

theorem cbcEnc_count (E : BlockFn) (k : List Nat) :
    ∀ (blocks : List (List Nat)) (prev : List Nat),
      (cbcEnc E k prev blocks).length = blocks.length := by
  intro blocks
  induction blocks with
  | nil => intro prev; simp [cbcEnc]
  | cons b bs ih => intro prev; simp [cbcEnc, ih]

/-- An empty IV vector and an explicit all-zero 16-byte IV produce the same
decryption: both fill the `byte ivArr[16] = {0}` buffer with zeros. -/
theorem decryptAESRaw_nil_iv (D : BlockFn) (data key : List Nat) (keySize : Nat) :
    decryptAESRaw D data key keySize [] =
      decryptAESRaw D data key keySize (List.replicate 16 0) := by
  simp [decryptAESRaw]

/-! ## Concrete collaborator instances used by the witnesses -/

/-- A concrete block-cipher instance satisfying the AES contract: reduce
each byte mod 256 (the identity on byte blocks). -/
def modCipher : BlockFn := fun _ b => b.map (fun x => x % 256)

theorem modCipher_len : ∀ k b, b.length = 16 → (modCipher k b).length = 16 := by
  intro k b h
  simp [modCipher, h]

theorem modCipher_bytes : ∀ k b x, x ∈ modCipher k b → x < 256 := by
  intro k b x hx
  simp only [modCipher, List.mem_map] at hx
  obtain ⟨y, -, rfl⟩ := hx
  omega

theorem modCipher_inv : ∀ k b, b.length = 16 → (∀ x ∈ b, x < 256) →
    modCipher k (modCipher k b) = b := by
  intro k b _ hb
  simp only [modCipher, List.map_map]
  rw [List.map_congr_left (g := id) (fun x hx => by
    have := hb x hx
    simp
    omega)]
  exact List.map_id b

/-- A trivial RSA collaborator instance: every key loads, nothing verifies. -/
def trivialRSA : RSAVerifyModel where
  loadPublicKey := fun _ => some []
  verify := fun _ _ => false

/-- A trivial zlib collaborator instance: the identity codec emitting one
chunk. -/
def idZlib : ZlibModel where
  deflateInitOk := true
  inflateInitOk := true
  deflateChunks := fun s => some [s]
  inflateChunks := fun s => some [s]

/-! ## The claims -/

/-- Claim C1.  For every plaintext P, every valid AES key K (16, 24 or 32
bytes, supplied hex-encoded) and every identifier in `{"", "client-42"}`,
parsing the packet produced by the envelope builder `prepareData` with the
same key in framed base64 mode (empty explicit IV) returns exactly P.  The
AES block permutation is the external collaborator: `E`/`D` range over any
pair satisfying its contract (16-byte blocks in and out, byte-valued output,
decryption inverts encryption), and the fresh IV drawn by the builder is the
16 random-pool bytes `iv`. -/
theorem claim_C1_roundtrip (E D : BlockFn)
    (hE1 : ∀ key b, b.length = 16 → (E key b).length = 16)
    (hE2 : ∀ key b x, x ∈ E key b → x < 256)
    (hD : ∀ key b, b.length = 16 → (∀ x ∈ b, x < 256) → D key (E key b) = b)
    (P K iv cid : List Nat)
    (hP : ∀ x ∈ P, x < 256)
    (hK : K.length = 16 ∨ K.length = 24 ∨ K.length = 32)
    (hKB : ∀ x ∈ K, x < 256)
    (hiv : iv.length = 16) (hivB : ∀ x ∈ iv, x < 256)
    (hcid : cid = [] ∨ cid = [99, 108, 105, 101, 110, 116, 45, 52, 50]) :
    (prepareData E iv P (stringToHex K) cid).bind
      (fun pkt => decryptAES D pkt (stringToHex K) [] true false) = .ok P := by
  have hks : validKeySize ((stringToHex K).length / 2) = true := by
    rw [stringToHex_length]
    rcases hK with h | h | h <;> rw [h] <;> decide
  refine prepare_decrypt_roundtrip E D hE1 hE2 hD P (stringToHex K) iv cid hP hiv hivB hks ?_
  rcases hcid with rfl | rfl
  · intro c hc
    simp at hc
  · intro c hc
    have hfacts : ∀ x ∈ [99, 108, 105, 101, 110, 116, 45, 52, 50],
        (x == DATA_DELIMITER) = false ∧ x ≠ 0 := by decide
    exact hfacts c hc

theorem claim_C1_roundtrip_witness :
    (prepareData modCipher (List.range 16) [104, 105]
        (stringToHex (List.replicate 16 0)) []).bind
      (fun pkt => decryptAES modCipher pkt (stringToHex (List.replicate 16 0)) [] true false)
      = .ok [104, 105] :=
  claim_C1_roundtrip modCipher modCipher modCipher_len modCipher_bytes modCipher_inv
    [104, 105] (List.replicate 16 0) (List.range 16) []
    (by decide) (by decide) (by decide) (by decide) (by decide) (Or.inl rfl)

/-- Claim C2.  In framed mode (empty explicit IV, base64 flag set) the
parser extracts an IV field if and only if the first `':'` sits at character
offset exactly 32: in that case — for an arbitrary 32-character prefix,
never checked for hex validity — the prefix is stripped and normalized and
an optional identifier field is skipped; at any other offset, or with no
`':'` at all, nothing is stripped and the whole blob is treated as
ciphertext-only (decrypted with the empty, i.e. zero, IV). -/
theorem claim_C2_fixed_offset_rule (D : BlockFn) (data hexKey : List Nat) :
    decryptAES D data hexKey [] true false =
      if List.findIdx? (fun c => c == DATA_DELIMITER) data = some 32 then
        decryptAESRaw D
          (base64Decode
            (match List.findIdx? (fun c => c == DATA_DELIMITER) (data.drop 33) with
             | some pos2 => (data.drop 33).drop (pos2 + 1)
             | none => data.drop 33))
          (keyFromHex hexKey) (hexKey.length / 2)
          (byteToVec (normalizeHex (data.take 32)))
      else
        decryptAESRaw D (base64Decode data) (keyFromHex hexKey) (hexKey.length / 2) [] := by
  by_cases h : List.findIdx? (fun c => c == DATA_DELIMITER) data = some 32
  · have hlt : 32 < data.length := (List.findIdx?_eq_some_iff_findIdx_eq.mp h).1
    have htl : (data.take 32).length = 32 := by
      simp [List.length_take]
      omega
    have h47 : (normalizeHex (data.take 32)).length = 47 := normalizeHex_length_of32 _ htl
    rw [if_pos h]
    cases h2 : List.findIdx? (fun c => c == DATA_DELIMITER) (data.drop 33) with
    | none => simp [decryptAES, extractFramed, h, h2, h47]
    | some p2 => simp [decryptAES, extractFramed, h, h2, h47]
  · rw [if_neg h]
    cases hf : List.findIdx? (fun c => c == DATA_DELIMITER) data with
    | none => simp [decryptAES, extractFramed, hf, byteToVec, byteToVecAux]
    | some p =>
      have hp : ¬ (p = 32) := by
        rintro rfl
        exact h hf
      simp [decryptAES, extractFramed, hf, hp, byteToVec, byteToVecAux]

/-- Claim C3.  The packet built by `prepareData` has length exactly
`expectedDataSize(len(P), len(id))` — an equality, not an upper bound —
for every plaintext, key and (NUL-free, since it is passed as a C string)
identifier, given the AES contract that ciphertext blocks are 16 bytes. -/
theorem claim_C3_size_law (E : BlockFn)
    (hE1 : ∀ key b, b.length = 16 → (E key b).length = 16)
    (P hexKey iv cid : List Nat)
    (hiv : iv.length = 16)
    (hks : validKeySize (hexKey.length / 2) = true)
    (hcid : ∀ c ∈ cid, c ≠ 0)
    (pkt : List Nat) (hpkt : prepareData E iv P hexKey cid = .ok pkt) :
    pkt.length = expectedDataSize P.length cid.length := by
  rw [prepareData_ok E iv P hexKey cid hks] at hpkt
  injection hpkt with hpkt
  subst hpkt
  obtain ⟨hB16, hBflat⟩ :=
    toBlocksAux_aligned (pkcs7Pad P).length (pkcs7Pad P) (Nat.le_refl _)
      (pkcs7Pad_aligned P)
  have hB16' : ∀ b ∈ toBlocks (pkcs7Pad P), b.length = 16 := hB16
  have hBflat' : (toBlocks (pkcs7Pad P)).flatten = pkcs7Pad P := hBflat
  have hcount : 16 * (toBlocks (pkcs7Pad P)).length = (pkcs7Pad P).length := by
    rw [← flatten_length_16 _ hB16', hBflat']
  have hencB : ∀ c ∈ cbcEnc E (keyFromHex hexKey) iv (toBlocks (pkcs7Pad P)),
      c.length = 16 := cbcEnc_length16 E _ hE1 _ iv hB16' hiv
  have hclen : (cbcEnc E (keyFromHex hexKey) iv (toBlocks (pkcs7Pad P))).flatten.length
      = (pkcs7Pad P).length := by
    rw [flatten_length_16 _ hencB, cbcEnc_count]
    exact hcount
  have hpad := pkcs7Pad_length P
  have hcidW : cid.takeWhile (fun c => c ≠ 0) = cid :=
    takeWhile_all cid (fun c hc => by simp [hcid c hc])
  rw [hcidW]
  rcases Nat.eq_zero_or_pos cid.length with hcz | hcz
  · have : cid = [] := List.length_eq_zero.mp hcz
    subst this
    simp [List.length_append, vecToString_length, hiv, base64Encode_length, hclen, hpad,
      expectedDataSize, expectedBase64Length, expectedAESCipherLength,
      PACKET_DELIMITER_SIZE, PACKET_DELIMITER]
    omega
  · simp [List.length_append, vecToString_length, hiv, base64Encode_length, hclen, hpad,
      expectedDataSize, expectedBase64Length, expectedAESCipherLength,
      PACKET_DELIMITER_SIZE, PACKET_DELIMITER, hcz, Nat.pos_iff_ne_zero.mp hcz]
    omega

theorem claim_C3_size_law_witness :
    ∃ pkt, prepareData modCipher (List.range 16) [1, 2, 3]
        (List.replicate 32 48) [100] = .ok pkt
      ∧ pkt.length = expectedDataSize 3 1 := by
  refine ⟨_, rfl, ?_⟩
  exact claim_C3_size_law modCipher modCipher_len [1, 2, 3] (List.replicate 32 48)
    (List.range 16) [100] (by decide) (by decide) (by decide) _ rfl

/-- Claim C4.  With an empty explicit IV and no framed IV field matched
(base64 flag unset, or first `':'` not at offset 32), `decryptAES` does not
fail for lack of an IV: it decrypts the (optionally decoded) data with the
all-zero 16-byte initialization vector. -/
theorem claim_C4_zero_iv (D : BlockFn) (data hexKey : List Nat) (isBase64 isHex : Bool)
    (h : isBase64 = false ∨
      List.findIdx? (fun c => c == DATA_DELIMITER) data ≠ some 32) :
    decryptAES D data hexKey [] isBase64 isHex =
      decryptAESRaw D
        (if isHex then hexToString (if isBase64 then base64Decode data else data)
         else if isBase64 then base64Decode data else data)
        (keyFromHex hexKey) (hexKey.length / 2) (List.replicate 16 0) := by
  have hex : extractFramed [] data isBase64 = ([], data) := by
    rcases h with rfl | hne
    · simp [extractFramed]
    · cases isBase64 with
      | false => simp [extractFramed]
      | true =>
        cases hf : List.findIdx? (fun c => c == DATA_DELIMITER) data with
        | none => simp [extractFramed, hf]
        | some p =>
          have hp : ¬ (p = 32) := by
            rintro rfl
            exact hne hf
          simp [extractFramed, hf, hp]
  rw [decryptAES, hex]
  simp only [List.length_nil]
  rw [if_neg (by omega : ¬ (0 : Nat) = 32)]
  rw [show byteToVec [] = [] from rfl]
  exact decryptAESRaw_nil_iv D _ _ _

theorem claim_C4_zero_iv_witness :
    decryptAES modCipher [] [] [] false false =
      decryptAESRaw modCipher [] (keyFromHex []) 0 (List.replicate 16 0) :=
  claim_C4_zero_iv modCipher [] [] false false (Or.inl rfl)

/-- Claim C5.  The framed-mode parser never strips the trailing
`PACKET_DELIMITER` (`"\r\n\r\n"`) from the ciphertext field: the field it
isolates from a full packet is the Base64 text with the terminator still
attached; parsing nevertheless succeeds because the Base64 decoder silently
ignores characters outside the alphabet, so the undecoded terminator does
not change the recovered ciphertext bytes. -/
theorem claim_C5_delimiter_not_stripped (E : BlockFn)
    (hE2 : ∀ key b x, x ∈ E key b → x < 256)
    (P hexKey iv cid : List Nat)
    (hiv : iv.length = 16) (hivB : ∀ x ∈ iv, x < 256)
    (hks : validKeySize (hexKey.length / 2) = true)
    (hcid : ∀ c ∈ cid, (c == DATA_DELIMITER) = false ∧ c ≠ 0)
    (pkt cipher iv2 : List Nat)
    (hpkt : prepareData E iv P hexKey cid = .ok pkt)
    (hc : encryptAES E iv P hexKey = .ok (cipher, iv2)) :
    (extractFramed [] pkt true).2 = base64Encode cipher ++ PACKET_DELIMITER
    ∧ base64Decode ((extractFramed [] pkt true).2) = cipher := by
  simp only [encryptAES, encryptAESRaw, hks, if_true, Except.ok.injEq, Prod.mk.injEq] at hc
  obtain ⟨rfl, rfl⟩ := hc
  rw [prepareData_ok E iv P hexKey cid hks] at hpkt
  injection hpkt with hpkt
  subst hpkt
  have hcidW : cid.takeWhile (fun c => c ≠ 0) = cid :=
    takeWhile_all cid (fun c hc' => by simp [(hcid c hc').2])
  have hivh : ∀ c ∈ vecToString iv, (c == DATA_DELIMITER) = false :=
    vecToString_no_colon iv hivB
  have h32 : (vecToString iv).length = 32 := by rw [vecToString_length, hiv]
  have hcipherB : ∀ x ∈ (cbcEnc E (keyFromHex hexKey) iv (toBlocks (pkcs7Pad P))).flatten,
      x < 256 := by
    intro x hx
    obtain ⟨c, hcm, hxc⟩ := List.mem_flatten.mp hx
    exact cbcEnc_bytes E _ hE2 _ _ c hcm x hxc
  have hdelim : ∀ c ∈ PACKET_DELIMITER, b64Val c = none := by decide
  have htailC : ∀ c ∈ base64Encode
      (cbcEnc E (keyFromHex hexKey) iv (toBlocks (pkcs7Pad P))).flatten
        ++ PACKET_DELIMITER, (c == DATA_DELIMITER) = false := by
    intro c hcm
    rcases List.mem_append.mp hcm with hc' | hc'
    · exact base64Encode_no_colon _ c hc'
    · have hpd : ∀ x ∈ PACKET_DELIMITER, (x == DATA_DELIMITER) = false := by decide
      exact hpd c hc'
  rw [hcidW]
  by_cases hcnil : cid.length = 0
  · have : cid = [] := List.length_eq_zero.mp hcnil
    subst this
    simp only [List.length_nil, gt_iff_lt, Nat.lt_irrefl, if_false, List.append_nil,
      List.nil_append]
    rw [show ((vecToString iv ++ [DATA_DELIMITER]
        ++ base64Encode (cbcEnc E (keyFromHex hexKey) iv (toBlocks (pkcs7Pad P))).flatten
        ++ PACKET_DELIMITER)) = vecToString iv ++ DATA_DELIMITER ::
            (base64Encode (cbcEnc E (keyFromHex hexKey) iv (toBlocks (pkcs7Pad P))).flatten
              ++ PACKET_DELIMITER) by simp]
    rw [extractFramed_no_id _ _ h32 hivh htailC]
    exact ⟨rfl, base64Decode_encode_junk _ _ hcipherB hdelim⟩
  · have hgt : cid.length > 0 := by omega
    simp only [gt_iff_lt, hgt, if_pos]
    rw [show (vecToString iv ++ [DATA_DELIMITER] ++ (cid ++ [DATA_DELIMITER])
        ++ base64Encode (cbcEnc E (keyFromHex hexKey) iv (toBlocks (pkcs7Pad P))).flatten
        ++ PACKET_DELIMITER) = vecToString iv ++ DATA_DELIMITER ::
            (cid ++ DATA_DELIMITER ::
              (base64Encode (cbcEnc E (keyFromHex hexKey) iv (toBlocks (pkcs7Pad P))).flatten
                ++ PACKET_DELIMITER)) by simp]
    rw [extractFramed_with_id _ _ _ h32 hivh (fun c hc' => (hcid c hc').1)]
    exact ⟨rfl, base64Decode_encode_junk _ _ hcipherB hdelim⟩

theorem claim_C5_delimiter_not_stripped_witness :
    ∃ pkt cipher iv2,
      prepareData modCipher (List.range 16) [] (List.replicate 32 48) [] = .ok pkt
      ∧ encryptAES modCipher (List.range 16) [] (List.replicate 32 48) = .ok (cipher, iv2)
      ∧ ((extractFramed [] pkt true).2 = base64Encode cipher ++ PACKET_DELIMITER
        ∧ base64Decode ((extractFramed [] pkt true).2) = cipher) := by
  refine ⟨_, _, _, rfl, rfl, ?_⟩
  exact claim_C5_delimiter_not_stripped modCipher modCipher_bytes []
    (List.replicate 32 48) (List.range 16) [] (by decide) (by decide) (by decide)
    (by decide) _ _ _ rfl rfl

/-- Claim C6.  When the framed IV field matched at offset 32 and a further
`':'` follows the IV, the parser skips the identifier field up to and
including that delimiter; its content is discarded — never validated and
never returned (the result is independent of it) — and only the remaining
field is decrypted. -/
theorem claim_C6_identifier_skipped (D : BlockFn) (hexKey ivh cid rest : List Nat)
    (h32 : ivh.length = 32)
    (hivh : ∀ c ∈ ivh, (c == DATA_DELIMITER) = false)
    (hcid : ∀ c ∈ cid, (c == DATA_DELIMITER) = false) :
    extractFramed [] (ivh ++ DATA_DELIMITER :: (cid ++ DATA_DELIMITER :: rest)) true
      = (normalizeHex ivh, rest)
    ∧ decryptAES D (ivh ++ DATA_DELIMITER :: (cid ++ DATA_DELIMITER :: rest))
        hexKey [] true false
      = decryptAESRaw D (base64Decode rest) (keyFromHex hexKey) (hexKey.length / 2)
          (byteToVec (normalizeHex ivh)) := by
  have hex := extractFramed_with_id ivh cid rest h32 hivh hcid
  refine ⟨hex, ?_⟩
  have h47 := normalizeHex_length_of32 ivh h32
  simp [decryptAES, hex, h47]

theorem claim_C6_identifier_skipped_witness :
    extractFramed []
        (List.replicate 32 48 ++ DATA_DELIMITER :: ([97] ++ DATA_DELIMITER :: [])) true
      = (normalizeHex (List.replicate 32 48), [])
    ∧ decryptAES modCipher
        (List.replicate 32 48 ++ DATA_DELIMITER :: ([97] ++ DATA_DELIMITER :: []))
        [] [] true false
      = decryptAESRaw modCipher (base64Decode []) (keyFromHex []) 0
          (byteToVec (normalizeHex (List.replicate 32 48))) :=
  claim_C6_identifier_skipped modCipher [] (List.replicate 32 48) [97] []
    (by decide) (by decide) (by decide)

/-- Claim C7.  `generateNewKey` rejects every length outside {16, 24, 32}
with the documented `invalid_argument` message and otherwise returns the
hex encoding of the freshly drawn key of that byte length (`2 l` hex
characters); the AES encryption and decryption entry points reject every
hex key whose byte length `hexKey.size() / 2` is outside {16, 24, 32} with
the key-length error. -/
theorem claim_C7_key_length_validation
    (l : Nat) (rnd : List Nat) (E D : BlockFn)
    (ivArr buffer data hexKey ivec : List Nat) (b h : Bool) :
    ((l = 16 ∨ l = 24 ∨ l = 32) →
        generateNewKey l rnd = .ok (stringToHex (rnd.take l))
          ∧ (rnd.length = l → (stringToHex (rnd.take l)).length = 2 * l))
    ∧ (¬ (l = 16 ∨ l = 24 ∨ l = 32) →
        generateNewKey l rnd
          = .error "Invalid key length. Acceptable lengths are 16, 24 or 32")
    ∧ (¬ (hexKey.length / 2 = 16 ∨ hexKey.length / 2 = 24 ∨ hexKey.length / 2 = 32) →
        encryptAES E ivArr buffer hexKey = .error keyLenErr
          ∧ decryptAES D data hexKey ivec b h = .error keyLenErr) := by
  refine ⟨?_, ?_, ?_⟩
  · intro hl
    refine ⟨by simp [generateNewKey, hl], ?_⟩
    intro hrl
    rw [stringToHex_length, List.length_take, hrl]
    omega
  · intro hl
    simp [generateNewKey, hl]
  · intro hkl
    have hv : validKeySize (hexKey.length / 2) = false := by
      simp only [validKeySize, Bool.or_eq_false_iff, beq_eq_false_iff_ne, ne_eq]
      omega
    constructor
    · simp [encryptAES, encryptAESRaw, hv]
    · simp [decryptAES, decryptAESRaw, hv]

theorem claim_C7_key_length_validation_witness :
    generateNewKey 16 (List.replicate 16 0) = .ok (stringToHex (List.replicate 16 0))
    ∧ generateNewKey 15 []
        = .error "Invalid key length. Acceptable lengths are 16, 24 or 32"
    ∧ decryptAES modCipher [] [] [] false false = .error keyLenErr := by
  refine ⟨?_, ?_, ?_⟩
  · exact ((claim_C7_key_length_validation 16 (List.replicate 16 0) modCipher modCipher
      [] [] [] [] [] false false).1 (Or.inl rfl)).1
  · exact (claim_C7_key_length_validation 15 [] modCipher modCipher
      [] [] [] [] [] false false).2.1 (by decide)
  · exact ((claim_C7_key_length_validation 15 [] modCipher modCipher
      [] [] [] [] [] false false).2.2 (by decide)).2

/-- Claim C8, counterexample.  The claim says `base64Decode` fails with a
`DecodeError` on every malformed (non-Base64) input.  The source decoder
(Crypto++ `Base64Decoder`, Ripe.cc:242-250) has no failure path at all: it
returns a decoded result for every input.  On the malformed input `"%%%%"`
it returns the empty byte string, and on the malformed input `"%aGk="` it
returns the bytes of `"hi"`, silently ignoring the invalid characters
instead of failing. -/
theorem claim_C8_counterexample :
    base64Decode [37, 37, 37, 37] = []
    ∧ base64Decode [37, 97, 71, 107, 61] = [104, 105] := by
  decide

/-- Claim C8, amended.  `base64Decode` never fails: characters outside the
64-character Base64 alphabet are silently ignored, so decoding any input
equals decoding its alphabet-only subsequence (in particular, fully
malformed input yields the empty byte string rather than an error). -/
theorem claim_C8_amended_lenient_decode (s : List Nat) :
    base64Decode s = base64Decode (s.filter (fun c => (b64Val c).isSome)) := by
  unfold base64Decode
  congr 1
  induction s with
  | nil => rfl
  | cons c cs ih =>
    cases hc : b64Val c with
    | none => simp [List.filter_cons, List.filterMap_cons, hc, ih]
    | some v => simp [List.filter_cons, List.filterMap_cons, hc, ih]

/-- Claim C9.  For every data string, signature string and public key,
`verifyRSA` returns the collaborator verifier's boolean verdict whenever the
key loads and validates — mismatching or malformed signatures yield `false`,
never an error (the hex decoding of the signature is total, and the
verification filter writes its outcome into the result byte) — while key
material that fails to load or validate raises the key error. -/
theorem claim_C9_verify_returns_bool (R : RSAVerifyModel)
    (data signatureHex publicKeyPEM : List Nat) :
    (∀ key, R.loadPublicKey publicKeyPEM = some key →
        verifyRSA R data signatureHex publicKeyPEM
          = .ok (R.verify key (hexToString signatureHex ++ data)))
    ∧ (R.loadPublicKey publicKeyPEM = none →
        verifyRSA R data signatureHex publicKeyPEM
          = .error "Could not load public key") := by
  constructor
  · intro key hk
    simp [verifyRSA, hk]
  · intro hk
    simp [verifyRSA, hk]

theorem claim_C9_verify_returns_bool_witness :
    verifyRSA trivialRSA [] [] [] = .ok false :=
  (claim_C9_verify_returns_bool trivialRSA [] [] []).1 [] rfl

/-- Claim C10.  For every byte string S — the empty string included —
decompressing the compressed string recovers S, given the zlib collaborator
contract: stream initialization succeeds, deflate (driven with `Z_FINISH`
over the whole input) reaches `Z_STREAM_END`, and inflate inverts the
emitted stream. -/
theorem claim_C10_compress_roundtrip (Z : ZlibModel)
    (hdef : Z.deflateInitOk = true) (hinf : Z.inflateInitOk = true)
    (htot : ∀ s, Z.deflateChunks s ≠ none)
    (hrt : ∀ s chunks, Z.deflateChunks s = some chunks →
        ∃ chunks2, Z.inflateChunks chunks.flatten = some chunks2
          ∧ chunks2.flatten = s) :
    ∀ s : List Nat, ∃ c, compressString Z s = .ok c ∧ decompressString Z c = .ok s := by
  intro s
  cases hd : Z.deflateChunks s with
  | none => exact absurd hd (htot s)
  | some chunks =>
    obtain ⟨chunks2, hi, hflat⟩ := hrt s chunks hd
    refine ⟨chunks.flatten, ?_, ?_⟩
    · simp [compressString, hdef, hd]
    · simp [decompressString, hinf, hi, hflat]

theorem claim_C10_compress_roundtrip_witness :
    (∃ c, compressString idZlib [] = .ok c ∧ decompressString idZlib c = .ok [])
    ∧ (∃ c, compressString idZlib [1, 2, 3] = .ok c
        ∧ decompressString idZlib c = .ok [1, 2, 3]) := by
  have hrt : ∀ s chunks, idZlib.deflateChunks s = some chunks →
      ∃ chunks2, idZlib.inflateChunks chunks.flatten = some chunks2
        ∧ chunks2.flatten = s := by
    intro s chunks hsc
    simp only [idZlib, Option.some.injEq] at hsc
    subst hsc
    exact ⟨[s], by simp [idZlib], by simp⟩
  constructor
  · exact claim_C10_compress_roundtrip idZlib rfl rfl (fun s => by simp [idZlib]) hrt []
  · exact claim_C10_compress_roundtrip idZlib rfl rfl (fun s => by simp [idZlib]) hrt [1, 2, 3]

end Ripe
